import Mathlib

/-!
Shallow embedding of the retry/backoff library (package `retry`): the
`Config` data model, option application and validation (`New`, `validate`),
fatal-error classification (`isFatal` over a model of Go error values and
`errors.Is`), backoff delay computation (`stepDuration`, `ipow2`,
`fibonacci`) and the three execution topologies (`Single`, `Chain`,
`Parallel`).

The embedding follows the newest revision of the source (the one defining
the `Fibonacci` mode, `minSleep = time.Second / 2`, and the `fatal`
sentinel list).  An intermediate revision differs only in
`minSleep = time.Second` and in lacking the `Fibonacci` branch; all
theorems below reference `minSleep` symbolically, so they are insensitive
to that difference wherever both revisions define the construct.

Machine integers: Go `time.Duration` and the multiplier helpers are
`int64`; every arithmetic step of the source that can overflow is wrapped
with `w64` (two's-complement reduction into `[-2^63, 2^63)`).
-/

namespace Retry

/-- Two's-complement wraparound of Go `int64` arithmetic: reduces an
unbounded integer into `[-2^63, 2^63)`. -/
def w64 (x : Int) : Int := (x + 2 ^ 63) % 2 ^ 64 - 2 ^ 63

/-- Model of Go error values as they occur in this library: `base i` is a
sentinel created by `errors.New` (distinct `i` model distinct identities);
`wrap tag e` is `fmt.Errorf("<tag>: %w", e)` for a non-nil `e`; `wrapNil
tag` is the same format applied to a nil error (its `Unwrap` yields nil).
Go compares errors by interface identity; structural equality on this type
coincides with identity for the comparisons performed below, where one
side is always a `base` sentinel or the identical constructed value. -/
inductive GoError where
  | base : Nat → GoError
  | wrap : String → GoError → GoError
  | wrapNil : String → GoError
deriving DecidableEq

/-- Model of `errors.Is(e, t)`: at each level first compare `e == t`, then
follow `Unwrap`; `base` and `wrapNil` have no (non-nil) unwrapping. -/
def errorIs (e t : GoError) : Bool :=
  match e with
  | .base i => if GoError.base i = t then true else false
  | .wrapNil s => if GoError.wrapNil s = t then true else false
  | .wrap s e2 => if GoError.wrap s e2 = t then true else errorIs e2 t

/-- Duration constant `time.Second` in nanoseconds. -/
def timeSecond : Int := 1000000000

/-- Constant `minSleep = time.Second / 2` of the newest revision (the
intermediate revision uses `time.Second`). -/
def minSleep : Int := timeSecond / 2

/-- Constant `minCount = 1`. -/
def minCount : Int := 1

/-- Constant `minParallel = 0`. -/
def minParallel : Int := 0

/-- Constant `minDuration = time.Duration(0)`. -/
def minDuration : Int := 0

/-- Mode constant `Simple = 0` (Go `mode` is a `byte`; we model the value
as a `Nat`, which only widens the "out-of-range byte" cases of the
claims). -/
def Simple : Nat := 0

/-- Mode constant `Linear = 1`. -/
def Linear : Nat := 1

/-- Mode constant `Exponential = 2`. -/
def Exponential : Nat := 2

/-- Mode constant `Fibonacci = 3`. -/
def Fibonacci : Nat := 3

/-- The `Config` struct.  Field types: `sleep`, `jitter` are
`time.Duration` (int64 nanoseconds), `count`, `parallelism` are Go `int`
(int64), `mode` is a byte, `fatal` is the registered fatal sentinel
list.  Zero values match Go's zero-valued struct. -/
structure Config where
  fatal : List GoError := []
  sleep : Int := 0
  jitter : Int := 0
  count : Int := 0
  parallelism : Int := 0
  mode : Nat := 0
  verbose : Bool := false
deriving DecidableEq

/-- Function `ipow2(v) = int64(math.Pow(2, float64(v)))`.  For `0 ≤ v ≤
1023` the float64 value is exactly `2^v` (IEEE-754 binary64 represents
every power of two in its exponent range), and for `v ≤ 62` the
conversion to int64 is exact; for larger `v` the Go conversion of an
out-of-range float is implementation-defined, modelled here as the amd64
result `-2^63`.  No theorem below depends on that out-of-range branch. -/
def ipow2 (v : Nat) : Int :=
  if v ≤ 62 then 2 ^ v else -(2 ^ 63)

/-- Function `fibonacci(n)`: `n < 2` yields `int64(n)`, otherwise the sum
of the two recursive calls, an int64 addition (hence `w64`). -/
def fibonacci : Nat → Int
  | 0 => 0
  | 1 => 1
  | n + 2 => w64 (fibonacci (n + 1) + fibonacci n)

/-- Method `Config.stepDuration(n)`: the `switch c.mode` of the source;
each Go multiplication/addition on `time.Duration` is int64, hence the
`w64` wrapping.  The `default` branch is the Simple formula. -/
def Config.stepDuration (c : Config) (n : Nat) : Int :=
  if c.mode = Linear then w64 (w64 (c.sleep * (n : Int)) + c.jitter)
  else if c.mode = Exponential then w64 (w64 (c.sleep * ipow2 n) + c.jitter)
  else if c.mode = Fibonacci then w64 (w64 (c.sleep * fibonacci n) + c.jitter)
  else w64 (c.sleep + w64 (c.jitter * (n : Int)))

/-- Method `Config.isFatal(err)`: iterates over `c.fatal` and returns true
on the first `i` with `errors.Is(c.fatal[i], err)` — note the argument
order of the source: the registered sentinel is the first argument. -/
def Config.isFatal (c : Config) (err : GoError) : Bool :=
  c.fatal.any fun f => errorIs f err

/-- Method `Config.validate()`: clamps `count`, `sleep`, `jitter`,
`parallelism` to their minimums, in source order. -/
def Config.validate (c : Config) : Config :=
  let c1 := if c.count < minCount then { c with count := minCount } else c
  let c2 := if c1.sleep ≤ minDuration then { c1 with sleep := minSleep } else c1
  let c3 := if c2.jitter < minDuration then { c2 with jitter := minDuration } else c2
  if c3.parallelism < minParallel then { c3 with parallelism := minParallel } else c3

/-- Option values of the functional-option constructors.  `count`,
`sleep`, `jitter`, `verbose`, `parallelism` come from `option.go`.
Modelled from the spec: the `mode` (strategy selector) and `fatal`
(fatal-error sentinel registration, variadic, additive) constructors are
referenced by the repository's tests but their definitions are not among
the provided source files; they are modelled from the spec's list of
options, each mutating exactly one field. -/
inductive Opt where
  | count : Int → Opt
  | sleep : Int → Opt
  | jitter : Int → Opt
  | verbose : Bool → Opt
  | parallelism : Int → Opt
  | mode : Nat → Opt
  | fatal : List GoError → Opt

/-- Application of one option to a `Config` (each option sets exactly one
field; `fatal` registration is additive). -/
def applyOpt (c : Config) : Opt → Config
  | .count n => { c with count := n }
  | .sleep d => { c with sleep := d }
  | .jitter d => { c with jitter := d }
  | .verbose v => { c with verbose := v }
  | .parallelism n => { c with parallelism := n }
  | .mode m => { c with mode := m }
  | .fatal es => { c with fatal := c.fatal ++ es }

/-- Function `New(opts...)`: applies the options in order to a zero-valued
`Config`, then validates.  It has no error result. -/
def New (opts : List Opt) : Config :=
  (opts.foldl applyOpt {}).validate

/-- Observable outcome of the retry loop of `Single`: whether some
invocation returned nil (`success`), the value of the `err` variable when
the loop ended (`lastErr`, `none` iff no iteration ran), the number of
invocations of the action (`calls`), and the list of performed sleep
durations in order (`sleeps`). -/
structure LoopOut where
  success : Bool
  lastErr : Option GoError
  calls : Nat
  sleeps : List Int
deriving DecidableEq

/-- Loop body of `Config.Single`: iteration index `n`, with `rem`
iterations left (`rem` starts at `c.count`).  An action is modelled as a
function from its invocation number to its result (`none` = nil error).
The guard `n < c.count` before the sleep is kept literally as in the
source (inside the loop it is always true). -/
def singleAux (c : Config) (fn : Nat → Option GoError) : Nat → Nat → LoopOut
  | _, 0 => ⟨false, none, 0, []⟩
  | n, rem + 1 =>
    match fn n with
    | none => ⟨true, none, 1, []⟩
    | some e =>
      if c.isFatal e then ⟨false, some e, 1, []⟩
      else
        let ds : List Int :=
          if (n : Int) < c.count then [c.stepDuration (n + 1)] else []
        match rem with
        | 0 => ⟨false, some e, 1, ds⟩
        | rem2 + 1 =>
          let r := singleAux c fn (n + 1) (rem2 + 1)
          ⟨r.success, r.lastErr, r.calls + 1, ds ++ r.sleeps⟩

/-- Observable result of `Config.Single`: the returned error (`none` =
nil), the invocation count and the performed sleeps. -/
structure SingleResult where
  err : Option GoError
  calls : Nat
  sleeps : List Int
deriving DecidableEq

/-- Method `Config.Single(name, fn)`: runs the loop `for n := range
c.count` (zero iterations when `count ≤ 0`, hence `toNat`); on in-loop
success returns nil, otherwise returns `fmt.Errorf("%s: %w", name, err)` —
wrapping a nil `err` when the loop never ran. -/
def Config.Single (c : Config) (name : String) (fn : Nat → Option GoError) :
    SingleResult :=
  let r := singleAux c fn 0 c.count.toNat
  if r.success then ⟨none, r.calls, r.sleeps⟩
  else
    match r.lastErr with
    | some e => ⟨some (.wrap name e), r.calls, r.sleeps⟩
    | none => ⟨some (.wrapNil name), r.calls, r.sleeps⟩

/-- An execution step: a name paired with an action. -/
structure GoStep where
  name : String
  fn : Nat → Option GoError

/-- Method `Config.Chain(steps...)`: runs `Single` on each step in list
order, stopping at the first error, which it wraps with the "chain" tag.
Alongside the returned error we record the invocation count of every step
(0 for steps never started). -/
def Config.Chain (c : Config) : List GoStep → Option GoError × List Nat
  | [] => (none, [])
  | s :: rest =>
    let r := c.Single s.name s.fn
    match r.err with
    | some e => (some (.wrap "chain" e), r.calls :: rest.map fun _ => 0)
    | none => ((c.Chain rest).1, r.calls :: (c.Chain rest).2)

/-- Method `Config.Parallel(steps...)`: every step's `Single` runs to
completion (the errgroup has no cancellation; `SetLimit` only bounds
simultaneity), `Wait` blocks for all of them and yields the first error
reported, which is wrapped with the "parallel" tag.  Which failure is
reported first depends on scheduling; the model deterministically picks
the first in list order, and the theorems below state only
order-independent facts (some step's `Single` error is the one wrapped). -/
def Config.Parallel (c : Config) (steps : List GoStep) :
    Option GoError × List Nat :=
  let rs := steps.map fun s => c.Single s.name s.fn
  match (rs.filterMap fun r => r.err).head? with
  | none => (none, rs.map fun r => r.calls)
  | some e => (some (.wrap "parallel" e), rs.map fun r => r.calls)

/-! ### Arithmetic and error-model helper lemmas -/

theorem w64_eq_of_bounds {x : Int} (h1 : -(2 ^ 63) ≤ x) (h2 : x < 2 ^ 63) :
    w64 x = x := by
  unfold w64
  have h3 : 0 ≤ x + 2 ^ 63 := by linarith
  have h4 : x + 2 ^ 63 < 2 ^ 64 := by
    have e : (2 : Int) ^ 64 = 2 ^ 63 + 2 ^ 63 := by ring
    rw [e]; linarith
  rw [Int.emod_eq_of_lt h3 h4]
  ring

theorem errorIs_self (e : GoError) : errorIs e e = true := by
  cases e <;> simp [errorIs]

theorem fib92_lt : Nat.fib 92 < 2 ^ 63 := by decide

theorem fibonacci_eq_fib : ∀ n, n ≤ 92 → fibonacci n = (Nat.fib n : Int) := by
  intro n
  induction n using Nat.strong_induction_on with
  | _ n ih =>
    match n with
    | 0 => intro _; simp [fibonacci]
    | 1 => intro _; simp [fibonacci]
    | (m + 2) =>
      intro h
      rw [show fibonacci (m + 2) = w64 (fibonacci (m + 1) + fibonacci m) from rfl]
      rw [ih (m + 1) (by omega) (by omega), ih m (by omega) (by omega)]
      have hsum : (Nat.fib (m + 1) : Int) + (Nat.fib m : Int) =
          ((Nat.fib (m + 2) : Nat) : Int) := by
        rw [Nat.fib_add_two]; push_cast; ring
      rw [hsum]
      apply w64_eq_of_bounds
      · have h0 : -((2 : Int) ^ 63) ≤ 0 := by norm_num
        have h1 := Int.natCast_nonneg (Nat.fib (m + 2))
        linarith
      · have hle : Nat.fib (m + 2) ≤ Nat.fib 92 := Nat.fib_mono (by omega)
        have h92 := fib92_lt
        exact_mod_cast (by omega : Nat.fib (m + 2) < 2 ^ 63)

/-! ### Unfolding lemmas for the Single loop -/

theorem singleAux_zero (c : Config) (fn : Nat → Option GoError) (n : Nat) :
    singleAux c fn n 0 = ⟨false, none, 0, []⟩ := rfl

theorem singleAux_unfold (c : Config) (fn : Nat → Option GoError)
    (n rem : Nat) :
    singleAux c fn n (rem + 1) =
      match fn n with
      | none => ⟨true, none, 1, []⟩
      | some e =>
        if c.isFatal e then ⟨false, some e, 1, []⟩
        else
          let ds : List Int :=
            if (n : Int) < c.count then [c.stepDuration (n + 1)] else []
          match rem with
          | 0 => ⟨false, some e, 1, ds⟩
          | rem2 + 1 =>
            ⟨(singleAux c fn (n + 1) (rem2 + 1)).success,
             (singleAux c fn (n + 1) (rem2 + 1)).lastErr,
             (singleAux c fn (n + 1) (rem2 + 1)).calls + 1,
             ds ++ (singleAux c fn (n + 1) (rem2 + 1)).sleeps⟩ := by
  rw [singleAux]

theorem singleAux_succ_none (c : Config) (fn : Nat → Option GoError)
    (n rem : Nat) (h : fn n = none) :
    singleAux c fn n (rem + 1) = ⟨true, none, 1, []⟩ := by
  rw [singleAux_unfold, h]

theorem singleAux_succ_fatal (c : Config) (fn : Nat → Option GoError)
    (n rem : Nat) (e : GoError) (h : fn n = some e) (hf : c.isFatal e = true) :
    singleAux c fn n (rem + 1) = ⟨false, some e, 1, []⟩ := by
  rw [singleAux_unfold, h]
  simp [hf]

theorem singleAux_succ_last (c : Config) (fn : Nat → Option GoError)
    (n : Nat) (e : GoError) (h : fn n = some e) (hf : c.isFatal e = false) :
    singleAux c fn n 1 = ⟨false, some e, 1,
      if (n : Int) < c.count then [c.stepDuration (n + 1)] else []⟩ := by
  rw [singleAux_unfold, h]
  simp [hf]

theorem singleAux_succ_cont (c : Config) (fn : Nat → Option GoError)
    (n rem : Nat) (e : GoError) (h : fn n = some e) (hf : c.isFatal e = false) :
    singleAux c fn n (rem + 2) =
      ⟨(singleAux c fn (n + 1) (rem + 1)).success,
       (singleAux c fn (n + 1) (rem + 1)).lastErr,
       (singleAux c fn (n + 1) (rem + 1)).calls + 1,
       (if (n : Int) < c.count then [c.stepDuration (n + 1)] else []) ++
         (singleAux c fn (n + 1) (rem + 1)).sleeps⟩ := by
  rw [singleAux_unfold, h]
  simp [hf]

/-- Loop lemma: `k` consecutive non-fatal failures from index `n`, then a
success, with enough iterations left, ends the loop successfully after
`k + 1` invocations. -/
theorem singleAux_success (c : Config) (fn : Nat → Option GoError) :
    ∀ (k n rem : Nat), k < rem →
    (∀ i < k, ∃ e, fn (n + i) = some e ∧ c.isFatal e = false) →
    fn (n + k) = none →
    (singleAux c fn n rem).success = true ∧
    (singleAux c fn n rem).calls = k + 1 := by
  intro k
  induction k with
  | zero =>
    intro n rem hrem _ hk
    obtain ⟨rem2, rfl⟩ : ∃ r2, rem = r2 + 1 := ⟨rem - 1, by omega⟩
    rw [singleAux_succ_none c fn n rem2 hk]
    exact ⟨rfl, rfl⟩
  | succ k ih =>
    intro n rem hrem hfail hk
    obtain ⟨e0, he0, hnf⟩ := hfail 0 (by omega)
    obtain ⟨rem2, rfl⟩ : ∃ r2, rem = r2 + 1 := ⟨rem - 1, by omega⟩
    obtain ⟨rem3, rfl⟩ : ∃ r3, rem2 = r3 + 1 := ⟨rem2 - 1, by omega⟩
    have hrec := ih (n + 1) (rem3 + 1) (by omega)
      (fun i hi => by
        obtain ⟨e, he, hf⟩ := hfail (i + 1) (by omega)
        refine ⟨e, ?_, hf⟩
        have harg : n + 1 + i = n + (i + 1) := by omega
        rw [harg]; exact he)
      (by
        have harg : n + 1 + k = n + (k + 1) := by omega
        rw [harg]; exact hk)
    rw [singleAux_succ_cont c fn n rem3 e0 he0 hnf]
    exact ⟨hrec.1, by simp [hrec.2]⟩

/-- Loop lemma: when every reachable invocation fails non-fatally, the
loop exhausts its `rem + 1` iterations, the last error is that of the
final invocation, and every iteration invoked the action once. -/
theorem singleAux_allfail (c : Config) (fn : Nat → Option GoError) :
    ∀ (rem n : Nat),
    (∀ i < rem + 1, ∃ e, fn (n + i) = some e ∧ c.isFatal e = false) →
    ∃ e, fn (n + rem) = some e ∧
      (singleAux c fn n (rem + 1)).success = false ∧
      (singleAux c fn n (rem + 1)).lastErr = some e ∧
      (singleAux c fn n (rem + 1)).calls = rem + 1 := by
  intro rem
  induction rem with
  | zero =>
    intro n hf
    obtain ⟨e, he, hnf⟩ := hf 0 (by omega)
    refine ⟨e, he, ?_⟩
    rw [singleAux_succ_last c fn n e he hnf]
    exact ⟨rfl, rfl, rfl⟩
  | succ rem ih =>
    intro n hf
    obtain ⟨e0, he0, hnf0⟩ := hf 0 (by omega)
    obtain ⟨e, he, hsucc, hlast, hcalls⟩ := ih (n + 1)
      (fun i hi => by
        obtain ⟨e, hh, hff⟩ := hf (i + 1) (by omega)
        refine ⟨e, ?_, hff⟩
        have harg : n + 1 + i = n + (i + 1) := by omega
        rw [harg]; exact hh)
    rw [singleAux_succ_cont c fn n rem e0 he0 hnf0]
    refine ⟨e, ?_, hsucc, hlast, by simp [hcalls]⟩
    have harg : n + (rem + 1) = n + 1 + rem := by omega
    rw [harg]; exact he

/-! ### Behaviour lemmas for Single -/

/-- Single returns nil after `k` non-fatal failures followed by a success
(`k` strictly below the iteration count), invoking the action `k + 1`
times. -/
theorem Single_success (c : Config) (name : String)
    (fn : Nat → Option GoError) (k : Nat) (hk : k < c.count.toNat)
    (hfail : ∀ i < k, ∃ e, fn i = some e ∧ c.isFatal e = false)
    (hsucc : fn k = none) :
    (c.Single name fn).err = none ∧ (c.Single name fn).calls = k + 1 := by
  have h := singleAux_success c fn k 0 c.count.toNat hk
    (fun i hi => by simpa using hfail i hi) (by simpa using hsucc)
  constructor
  · simp [Config.Single, h.1]
  · simp [Config.Single, h.1, h.2]

/-- Single exhausts all iterations when every invocation fails
non-fatally, invoking the action `count.toNat` times and returning the
last error wrapped with the operation name. -/
theorem Single_exhaust (c : Config) (name : String)
    (fn : Nat → Option GoError) (hc : 1 ≤ c.count.toNat)
    (hfail : ∀ i < c.count.toNat, ∃ e, fn i = some e ∧ c.isFatal e = false) :
    ∃ e, fn (c.count.toNat - 1) = some e ∧
      (c.Single name fn).err = some (.wrap name e) ∧
      (c.Single name fn).calls = c.count.toNat := by
  obtain ⟨rem, hrem⟩ : ∃ r, c.count.toNat = r + 1 := ⟨c.count.toNat - 1, by omega⟩
  obtain ⟨e, he, hsucc, hlast, hcalls⟩ := singleAux_allfail c fn rem 0
    (fun i hi => by simpa using hfail i (by omega))
  refine ⟨e, by simpa [hrem] using he, ?_, ?_⟩
  · simp [Config.Single, hrem, hsucc, hlast]
  · simp [Config.Single, hrem, hsucc, hlast, hcalls]

/-- Single stops after one invocation, with no sleep, when the first
invocation returns a fatal error, and wraps it with the operation name. -/
theorem Single_fatal (c : Config) (name : String)
    (fn : Nat → Option GoError) (e : GoError) (hc : 1 ≤ c.count.toNat)
    (h0 : fn 0 = some e) (hf : c.isFatal e = true) :
    c.Single name fn = ⟨some (.wrap name e), 1, []⟩ := by
  obtain ⟨rem, hrem⟩ : ∃ r, c.count.toNat = r + 1 := ⟨c.count.toNat - 1, by omega⟩
  simp [Config.Single, hrem, singleAux_succ_fatal c fn 0 rem e h0 hf]

/-- Testing a name-wrapped error against the wrapped error itself succeeds
through the wrap chain (model of `errors.Is(fmt.Errorf("%s: %w", name, e),
e)`). -/
theorem errorIs_wrap_self (s : String) (e : GoError) :
    errorIs (.wrap s e) e = true := by
  show (if GoError.wrap s e = e then true else errorIs e e) = true
  split
  · rfl
  · exact errorIs_self e

/-! ### Exact-value lemmas for stepDuration -/

theorem stepDuration_default (c : Config) (n : Nat) (h1 : c.mode ≠ Linear)
    (h2 : c.mode ≠ Exponential) (h3 : c.mode ≠ Fibonacci) :
    c.stepDuration n = w64 (c.sleep + w64 (c.jitter * (n : Int))) := by
  rw [Config.stepDuration, if_neg h1, if_neg h2, if_neg h3]

theorem stepDuration_simple_exact (c : Config) (n : Nat) (hm : c.mode = Simple)
    (hs : 0 < c.sleep) (hj : 0 ≤ c.jitter)
    (hb : c.sleep + c.jitter * (n : Int) < 2 ^ 63) :
    c.stepDuration n = c.sleep + c.jitter * (n : Int) := by
  have hneg : -((2 : Int) ^ 63) ≤ 0 := by norm_num
  have hjn : 0 ≤ c.jitter * (n : Int) := mul_nonneg hj (Int.natCast_nonneg n)
  have hin : w64 (c.jitter * (n : Int)) = c.jitter * (n : Int) :=
    w64_eq_of_bounds (by linarith) (by linarith)
  rw [stepDuration_default c n (by rw [hm]; decide) (by rw [hm]; decide)
    (by rw [hm]; decide), hin]
  exact w64_eq_of_bounds (by linarith) hb

theorem stepDuration_linear_exact (c : Config) (n : Nat) (hm : c.mode = Linear)
    (hs : 0 < c.sleep) (hj : 0 ≤ c.jitter)
    (hb : c.sleep * (n : Int) + c.jitter < 2 ^ 63) :
    c.stepDuration n = c.sleep * (n : Int) + c.jitter := by
  have hneg : -((2 : Int) ^ 63) ≤ 0 := by norm_num
  have hsn : 0 ≤ c.sleep * (n : Int) := mul_nonneg hs.le (Int.natCast_nonneg n)
  have hin : w64 (c.sleep * (n : Int)) = c.sleep * (n : Int) :=
    w64_eq_of_bounds (by linarith) (by linarith)
  rw [Config.stepDuration, if_pos hm, hin]
  exact w64_eq_of_bounds (by linarith) hb

theorem stepDuration_exponential_exact (c : Config) (n : Nat)
    (hm : c.mode = Exponential) (hn : n ≤ 62) (hs : 0 < c.sleep)
    (hj : 0 ≤ c.jitter) (hb : c.sleep * 2 ^ n + c.jitter < 2 ^ 63) :
    c.stepDuration n = c.sleep * 2 ^ n + c.jitter := by
  have hneg : -((2 : Int) ^ 63) ≤ 0 := by norm_num
  have hp : (0 : Int) < 2 ^ n := pow_pos (by norm_num) n
  have hsn : 0 ≤ c.sleep * (2 : Int) ^ n := mul_nonneg hs.le hp.le
  have hin : w64 (c.sleep * (2 : Int) ^ n) = c.sleep * 2 ^ n :=
    w64_eq_of_bounds (by linarith) (by linarith)
  have hmode1 : c.mode ≠ Linear := by rw [hm]; decide
  rw [Config.stepDuration, if_neg hmode1, if_pos hm, ipow2, if_pos hn, hin]
  exact w64_eq_of_bounds (by linarith) hb

theorem stepDuration_fibonacci_exact (c : Config) (n : Nat)
    (hm : c.mode = Fibonacci) (hn : n ≤ 92) (hs : 0 < c.sleep)
    (hj : 0 ≤ c.jitter) (hb : c.sleep * (Nat.fib n : Int) + c.jitter < 2 ^ 63) :
    c.stepDuration n = c.sleep * (Nat.fib n : Int) + c.jitter := by
  have hneg : -((2 : Int) ^ 63) ≤ 0 := by norm_num
  have hfn : (0 : Int) ≤ (Nat.fib n : Int) := Int.natCast_nonneg _
  have hsn : 0 ≤ c.sleep * (Nat.fib n : Int) := mul_nonneg hs.le hfn
  have hin : w64 (c.sleep * (Nat.fib n : Int)) = c.sleep * (Nat.fib n : Int) :=
    w64_eq_of_bounds (by linarith) (by linarith)
  have hmode1 : c.mode ≠ Linear := by rw [hm]; decide
  have hmode2 : c.mode ≠ Exponential := by rw [hm]; decide
  rw [Config.stepDuration, if_neg hmode1, if_neg hmode2, if_pos hm,
    fibonacci_eq_fib n hn, hin]
  exact w64_eq_of_bounds (by linarith) hb

/-! ### Validation helper -/

theorem validate_fields (c : Config) :
    c.validate = { c with
      count := if c.count < minCount then minCount else c.count,
      sleep := if c.sleep ≤ minDuration then minSleep else c.sleep,
      jitter := if c.jitter < minDuration then minDuration else c.jitter,
      parallelism :=
        if c.parallelism < minParallel then minParallel else c.parallelism } := by
  unfold Config.validate
  by_cases h1 : c.count < minCount <;> by_cases h2 : c.sleep ≤ minDuration <;>
    by_cases h3 : c.jitter < minDuration <;>
    by_cases h4 : c.parallelism < minParallel <;>
    simp [h1, h2, h3, h4]

theorem validate_invariants (c : Config) :
    1 ≤ c.validate.count ∧ 0 < c.validate.sleep ∧ 0 ≤ c.validate.jitter ∧
    0 ≤ c.validate.parallelism := by
  rw [validate_fields]
  refine ⟨?_, ?_, ?_, ?_⟩ <;>
    simp [minCount, minDuration, minParallel, minSleep, timeSecond] <;>
    split_ifs <;> omega

/-! ### Unfolding lemmas for Chain and Parallel -/

theorem Chain_nil (c : Config) : c.Chain [] = (none, []) := rfl

theorem Chain_cons (c : Config) (s : GoStep) (rest : List GoStep) :
    c.Chain (s :: rest) =
      match (c.Single s.name s.fn).err with
      | some e => (some (.wrap "chain" e),
          (c.Single s.name s.fn).calls :: rest.map fun _ => 0)
      | none => ((c.Chain rest).1,
          (c.Single s.name s.fn).calls :: (c.Chain rest).2) := by
  rw [Config.Chain]

theorem Chain_cons_err (c : Config) (s : GoStep) (rest : List GoStep)
    (e : GoError) (h : (c.Single s.name s.fn).err = some e) :
    c.Chain (s :: rest) = (some (.wrap "chain" e),
      (c.Single s.name s.fn).calls :: rest.map fun _ => 0) := by
  rw [Chain_cons, h]

theorem Chain_cons_ok (c : Config) (s : GoStep) (rest : List GoStep)
    (h : (c.Single s.name s.fn).err = none) :
    c.Chain (s :: rest) = ((c.Chain rest).1,
      (c.Single s.name s.fn).calls :: (c.Chain rest).2) := by
  rw [Chain_cons, h]

/-! ### Claim C1 -/

/-- C1 counterexample: the claim as stated (its first branch does not
except fatal failures) is false.  With attempt limit 3 and sentinel
`base 7` registered fatal, an action failing exactly once with `base 7`
and then succeeding is invoked once (not 2 = k + 1 times) and Single does
not return nil. -/
theorem c1_counterexample :
    ((New [Opt.count 3, Opt.fatal [.base 7]]).Single "s"
        (fun i => if i = 0 then some (.base 7) else none)).calls = 1 ∧
    ((New [Opt.count 3, Opt.fatal [.base 7]]).Single "s"
        (fun i => if i = 0 then some (.base 7) else none)).err ≠ none := by
  decide

/-- C1 (amended): for every attempt limit `L ≥ 1`, provided no failure
matches a fatal sentinel: an action failing exactly `k < L` times and then
succeeding makes Single return nil after exactly `k + 1` invocations; an
action failing on every invocation is invoked exactly `L` times and
Single returns the last error wrapped with the operation name (testable
through the wrap chain). -/
theorem c1_single_retry_behavior (c : Config) (name : String)
    (fn : Nat → Option GoError) (hL : 1 ≤ c.count) :
    (∀ k : Nat, (k : Int) < c.count →
      (∀ i < k, ∃ e, fn i = some e ∧ c.isFatal e = false) →
      fn k = none →
      (c.Single name fn).err = none ∧ (c.Single name fn).calls = k + 1) ∧
    ((∀ i : Nat, (i : Int) < c.count →
        ∃ e, fn i = some e ∧ c.isFatal e = false) →
      ∃ e, fn (c.count.toNat - 1) = some e ∧
        (c.Single name fn).err = some (.wrap name e) ∧
        errorIs (.wrap name e) e = true ∧
        (c.Single name fn).calls = c.count.toNat ∧
        (c.count.toNat : Int) = c.count) := by
  constructor
  · intro k hk hfail hsucc
    exact Single_success c name fn k (by omega) hfail hsucc
  · intro hfail
    obtain ⟨e, he, herr, hcalls⟩ := Single_exhaust c name fn (by omega)
      (fun i hi => hfail i (by omega))
    exact ⟨e, he, herr, errorIs_wrap_self name e, hcalls, by omega⟩

/-- C1 witness: attempt limit 3, an action failing once (non-fatally) then
succeeding returns nil in exactly 2 invocations. -/
theorem c1_single_retry_behavior_witness :
    ((New [Opt.count 3]).Single "w"
        (fun i => if i = 0 then some (.base 1) else none)).err = none ∧
    ((New [Opt.count 3]).Single "w"
        (fun i => if i = 0 then some (.base 1) else none)).calls = 2 := by
  exact (c1_single_retry_behavior (New [Opt.count 3]) "w"
      (fun i => if i = 0 then some (.base 1) else none) (by decide)).1 1
    (by decide)
    (fun i hi => by
      interval_cases i
      exact ⟨.base 1, rfl, by decide⟩)
    (by decide)

/-! ### Claim C2 -/

/-- C2: evaluation at the failing input.  With sentinel `base 0`
registered fatal, an operation error wrapping that sentinel is NOT
classified fatal by the code (the source calls `errors.Is(c.fatal[i],
err)`, i.e. walks the sentinel's chain looking for the error, the
reverse of the claimed direction), whereas the exact sentinel is. -/
theorem c2_isFatal_wrapped_sentinel_not_fatal :
    (New [Opt.fatal [.base 0]]).isFatal (.wrap "op" (.base 0)) = false ∧
    (New [Opt.fatal [.base 0]]).isFatal (.base 0) = true := by
  decide

/-! ### Claim C3 -/

/-- C3: evaluation at the failing input.  The guard `n < c.count` before
the sleep is vacuously true inside the loop, so Single sleeps after every
failed non-fatal attempt, including the final one: with attempt limit 1 a
failing action is invoked once yet one delay (of `stepDuration 1`) is
performed (the claim says zero), and with attempt limit 3 an exhausting
run performs 3 delays (the claim says L - 1 = 2). -/
theorem c3_sleep_after_final_attempt :
    ((New []).Single "t" (fun _ => some (.base 0))).sleeps =
      [(New []).stepDuration 1] ∧
    ((New []).Single "t" (fun _ => some (.base 0))).calls = 1 ∧
    ((New [Opt.count 3]).Single "t" (fun _ => some (.base 0))).sleeps.length
      = 3 := by
  decide

/-! ### Claim C4 -/

/-- C4: an action returning a registered fatal sentinel on its first
invocation is invoked exactly once, no delay is performed, and Single
returns that sentinel wrapped with the operation name, testable against
the sentinel through the wrap chain — for any attempt limit above 1. -/
theorem c4_fatal_short_circuit (c : Config) (name : String)
    (fn : Nat → Option GoError) (e : GoError) (hL : 1 < c.count)
    (hreg : e ∈ c.fatal) (h0 : fn 0 = some e) :
    c.Single name fn = ⟨some (.wrap name e), 1, []⟩ ∧
    errorIs (.wrap name e) e = true := by
  have hf : c.isFatal e = true := by
    unfold Config.isFatal
    rw [List.any_eq_true]
    exact ⟨e, hreg, errorIs_self e⟩
  exact ⟨Single_fatal c name fn e (by omega) h0 hf, errorIs_wrap_self name e⟩

/-- C4 witness: attempt limit 3 with fatal sentinel `base 5`; the action
returning it immediately stops Single after one invocation, with no
sleeps, wrapped with the operation name. -/
theorem c4_fatal_short_circuit_witness :
    (New [Opt.count 3, Opt.fatal [.base 5]]).Single "w"
        (fun _ => some (.base 5)) = ⟨some (.wrap "w" (.base 5)), 1, []⟩ := by
  exact (c4_fatal_short_circuit (New [Opt.count 3, Opt.fatal [.base 5]]) "w"
      (fun _ => some (.base 5)) (.base 5) (by decide) (by decide) rfl).1

/-! ### Claim C5 -/

/-- C5 counterexample: the exact-formula/exact-multiplier claim fails at
attempt index 93 of the Fibonacci strategy on a validated configuration
(baseDelay 1ns, attempt limit 100): the recursive int64 addition inside
`fibonacci` overflows, so the delay is not `baseDelay * fib 93 + jitter`
(the code yields a negative duration). -/
theorem c5_counterexample :
    (New [Opt.mode 3, Opt.sleep 1, Opt.count 100]).stepDuration 93 ≠
      (New [Opt.mode 3, Opt.sleep 1, Opt.count 100]).sleep *
          (Nat.fib 93 : Int) +
        (New [Opt.mode 3, Opt.sleep 1, Opt.count 100]).jitter := by
  have e92 : Nat.fib 92 = 7540113804746346429 := by decide
  have e91 : Nat.fib 91 = 4660046610375530309 := by decide
  have e93 : Nat.fib 93 = 12200160415121876738 := by decide
  have hf93 : fibonacci 93 = -6246583658587674878 := by
    rw [show fibonacci 93 = w64 (fibonacci 92 + fibonacci 91) from rfl,
      fibonacci_eq_fib 92 (by norm_num), fibonacci_eq_fib 91 (by norm_num),
      e92, e91]
    decide
  have hmode : (New [Opt.mode 3, Opt.sleep 1, Opt.count 100]).mode = 3 := by
    decide
  have hs : (New [Opt.mode 3, Opt.sleep 1, Opt.count 100]).sleep = 1 := by
    decide
  have hj : (New [Opt.mode 3, Opt.sleep 1, Opt.count 100]).jitter = 0 := by
    decide
  rw [Config.stepDuration, hmode]
  norm_num [Linear, Exponential, Fibonacci]
  rw [hs, hj, hf93]
  decide

/-- C5 (amended): for attempt indices within the exactly-representable
range of each multiplier — `n ≤ 62` for Exponential (where the
float64-computed `2^n` converts exactly to int64) and `n ≤ 92` for
Fibonacci (where the recursive int64 sum has not yet overflowed) — and
whenever the resulting duration fits int64, the delay equals exactly
`baseDelay + jitter*n` (Simple), `baseDelay*n + jitter` (Linear),
`baseDelay*2^n + jitter` (Exponential) and `baseDelay*fib(n) + jitter`
(Fibonacci, `fib(0)=0, fib(1)=1, fib(n)=fib(n-1)+fib(n-2)`); the
Fibonacci multiplier is exact integer arithmetic in that range, while the
Exponential multiplier is computed in float64 (`math.Pow`), exact there
only because powers of two are exactly representable. -/
theorem c5_delay_formulas (c : Config) (n : Nat) (hs : 0 < c.sleep)
    (hj : 0 ≤ c.jitter) :
    (c.mode = Simple → c.sleep + c.jitter * (n : Int) < 2 ^ 63 →
      c.stepDuration n = c.sleep + c.jitter * (n : Int)) ∧
    (c.mode = Linear → c.sleep * (n : Int) + c.jitter < 2 ^ 63 →
      c.stepDuration n = c.sleep * (n : Int) + c.jitter) ∧
    (c.mode = Exponential → n ≤ 62 →
      c.sleep * 2 ^ n + c.jitter < 2 ^ 63 →
      c.stepDuration n = c.sleep * 2 ^ n + c.jitter) ∧
    (c.mode = Fibonacci → n ≤ 92 →
      c.sleep * (Nat.fib n : Int) + c.jitter < 2 ^ 63 →
      c.stepDuration n = c.sleep * (Nat.fib n : Int) + c.jitter) := by
  exact ⟨fun hm hb => stepDuration_simple_exact c n hm hs hj hb,
    fun hm hb => stepDuration_linear_exact c n hm hs hj hb,
    fun hm hn hb => stepDuration_exponential_exact c n hm hn hs hj hb,
    fun hm hn hb => stepDuration_fibonacci_exact c n hm hn hs hj hb⟩

/-- C5 witness: Linear strategy with baseDelay 2ns and jitter 5ns yields
delay 2*4 + 5 = 13 at attempt index 4. -/
theorem c5_delay_formulas_witness :
    (New [Opt.mode 1, Opt.sleep 2, Opt.jitter 5]).stepDuration 4 = 13 := by
  have h := (c5_delay_formulas (New [Opt.mode 1, Opt.sleep 2, Opt.jitter 5]) 4
      (by decide) (by decide)).2.1 (by decide) (by decide)
  rw [h]
  decide

/-! ### Claim C6 -/

/-- C6 counterexample: with jitter 0 the Fibonacci delay is not strictly
increasing: `fib 1 = fib 2 = 1`, so the delays at attempt indices 1 and 2
are equal on the default-validated Fibonacci configuration. -/
theorem c6_counterexample :
    (New [Opt.mode 3]).jitter = 0 ∧ (New [Opt.mode 3]).mode = Fibonacci ∧
    ¬((New [Opt.mode 3]).stepDuration 1 < (New [Opt.mode 3]).stepDuration 2) := by
  decide

/-- C6 (amended): with jitter 0 and a positive base delay, within the
int64-exact range of each strategy the delay is monotonically
non-decreasing in the attempt index for every strategy, strictly
increasing for Exponential, and strictly increasing for Fibonacci except
at the single step from index 1 to index 2 (where `fib 1 = fib 2`). -/
theorem c6_delay_monotonicity (c : Config) (n : Nat) (hj : c.jitter = 0)
    (hs : 0 < c.sleep) :
    (c.mode = Simple → c.stepDuration n ≤ c.stepDuration (n + 1)) ∧
    (c.mode = Linear → c.sleep * ((n : Int) + 1) < 2 ^ 63 →
      c.stepDuration n ≤ c.stepDuration (n + 1)) ∧
    (c.mode = Exponential → n + 1 ≤ 62 → c.sleep * 2 ^ (n + 1) < 2 ^ 63 →
      c.stepDuration n < c.stepDuration (n + 1)) ∧
    (c.mode = Fibonacci → n + 1 ≤ 92 →
      c.sleep * (Nat.fib (n + 1) : Int) < 2 ^ 63 →
      c.stepDuration n ≤ c.stepDuration (n + 1) ∧
      (n ≠ 1 → c.stepDuration n < c.stepDuration (n + 1))) := by
  have hj0 : (0 : Int) ≤ c.jitter := by rw [hj]
  refine ⟨?_, ?_, ?_, ?_⟩
  · intro hm
    rw [stepDuration_default c n (by rw [hm]; decide) (by rw [hm]; decide)
        (by rw [hm]; decide),
      stepDuration_default c (n + 1) (by rw [hm]; decide) (by rw [hm]; decide)
        (by rw [hm]; decide), hj]
    simp
  · intro hm hb
    have hb0 : c.sleep * (n : Int) + c.jitter < 2 ^ 63 := by
      have : c.sleep * (n : Int) ≤ c.sleep * ((n : Int) + 1) := by nlinarith
      linarith
    have hb1 : c.sleep * ((n : Int) + 1) + c.jitter < 2 ^ 63 := by linarith
    rw [stepDuration_linear_exact c n hm hs hj0 hb0,
      stepDuration_linear_exact c (n + 1) hm hs hj0 (by push_cast; push_cast at hb1; linarith)]
    push_cast
    nlinarith
  · intro hm hn hb
    have hm1 : c.sleep * 2 ^ n < c.sleep * 2 ^ (n + 1) := by
      have h2 : (2 : Int) ^ n < 2 ^ (n + 1) := by
        have := pow_pos (show (0:Int) < 2 by norm_num) n
        rw [pow_succ]
        nlinarith
      exact mul_lt_mul_of_pos_left h2 hs
    rw [stepDuration_exponential_exact c n hm (by omega) hs hj0 (by linarith),
      stepDuration_exponential_exact c (n + 1) hm hn hs hj0 (by linarith)]
    linarith
  · intro hm hn hb
    have hmono : (Nat.fib n : Int) ≤ (Nat.fib (n + 1) : Int) := by
      exact_mod_cast Nat.fib_mono (Nat.le_succ n)
    have hfn0 : (0 : Int) ≤ (Nat.fib n : Int) := Int.natCast_nonneg _
    have hble : c.sleep * (Nat.fib n : Int) ≤ c.sleep * (Nat.fib (n + 1) : Int) := by
      nlinarith
    have hb0 : c.sleep * (Nat.fib n : Int) + c.jitter < 2 ^ 63 := by
      rw [hj]; linarith
    have hb1 : c.sleep * (Nat.fib (n + 1) : Int) + c.jitter < 2 ^ 63 := by
      rw [hj]; linarith
    rw [stepDuration_fibonacci_exact c n hm (by omega) hs hj0 hb0,
      stepDuration_fibonacci_exact c (n + 1) hm hn hs hj0 hb1]
    refine ⟨by linarith, ?_⟩
    intro hne
    have hstrict : (Nat.fib n : Int) < (Nat.fib (n + 1) : Int) := by
      match n, hne with
      | 0, _ => decide
      | (m + 2), _ =>
        exact_mod_cast Nat.fib_lt_fib_succ (n := m + 2) (by omega)
    have := mul_lt_mul_of_pos_left hstrict hs
    linarith

/-- C6 witness: on the default-validated Exponential configuration the
delay at attempt index 4 strictly exceeds the one at index 3. -/
theorem c6_delay_monotonicity_witness :
    (New [Opt.mode 2]).stepDuration 3 < (New [Opt.mode 2]).stepDuration 4 := by
  exact (c6_delay_monotonicity (New [Opt.mode 2]) 3 (by decide)
      (by decide)).2.2.1 (by decide) (by decide) (by decide)

/-! ### Claim C7 -/

/-- C7: Chain runs Single on each operation strictly in list order,
returns at the first non-nil Single result that result wrapped with the
"chain" tag (on top of the operation-name wrapping performed by Single),
never invokes any operation after the failing one (their invocation
counts are 0), and returns nil for the empty list. -/
theorem c7_chain_behavior (c : Config) (steps : List GoStep) :
    (c.Chain [] = (none, [])) ∧
    ((∀ s ∈ steps, (c.Single s.name s.fn).err = none) →
      c.Chain steps = (none, steps.map fun s => (c.Single s.name s.fn).calls)) ∧
    (∀ pre s post, steps = pre ++ s :: post →
      (∀ t ∈ pre, (c.Single t.name t.fn).err = none) →
      ∀ e, (c.Single s.name s.fn).err = some e →
      c.Chain steps =
        (some (.wrap "chain" e),
         (pre.map fun t => (c.Single t.name t.fn).calls) ++
           (c.Single s.name s.fn).calls :: post.map fun _ => 0)) := by
  refine ⟨Chain_nil c, ?_, ?_⟩
  · intro hok
    induction steps with
    | nil => simp [Chain_nil]
    | cons s rest ih =>
      have hs := hok s (by simp)
      have hr := ih fun t ht => hok t (by simp [ht])
      rw [Chain_cons_ok c s rest hs, hr]
      simp
  · intro pre s post hsteps hok e herr
    subst hsteps
    induction pre with
    | nil => simp [Chain_cons_err c s post e herr]
    | cons t pre ih =>
      have ht := hok t (by simp)
      have hr := ih fun u hu => hok u (by simp [hu])
      rw [List.cons_append, Chain_cons_ok c t (pre ++ s :: post) ht, hr]
      simp

/-- C7 witness: with attempt limit 2, a chain of a persistently failing
step A followed by a step B returns A's wrapped error under the "chain"
tag, invokes A twice and never invokes B. -/
theorem c7_chain_behavior_witness :
    (New [Opt.count 2]).Chain
        [⟨"A", fun _ => some (.base 1)⟩, ⟨"B", fun _ => none⟩] =
      (some (.wrap "chain" (.wrap "A" (.base 1))), [2, 0]) := by
  have h := (c7_chain_behavior (New [Opt.count 2])
      [⟨"A", fun _ => some (.base 1)⟩, ⟨"B", fun _ => none⟩]).2.2
      [] ⟨"A", fun _ => some (.base 1)⟩ [⟨"B", fun _ => none⟩] rfl
      (by simp) (.wrap "A" (.base 1)) (by decide)
  rw [h]
  decide

/-! ### Claim C8 -/

/-- C8: Parallel runs every operation's full Single sequence regardless of
sibling failures (each recorded invocation count is that of the
operation's own complete Single run), returns nil for the empty list,
returns nil iff every operation succeeded, and any returned error wraps
some operation's Single error with the "parallel" tag. -/
theorem Parallel_eq (c : Config) (steps : List GoStep) :
    c.Parallel steps =
      match ((steps.map fun s => c.Single s.name s.fn).filterMap
          fun r => r.err).head? with
      | none =>
        (none, (steps.map fun s => c.Single s.name s.fn).map fun r => r.calls)
      | some e =>
        (some (.wrap "parallel" e),
         (steps.map fun s => c.Single s.name s.fn).map fun r => r.calls) :=
  rfl

/-- C8: Parallel runs every operation's full Single sequence regardless of
sibling failures (each recorded invocation count is that of the
operation's own complete Single run), returns nil for the empty list,
returns nil iff every operation succeeded, and any returned error wraps
some operation's Single error with the "parallel" tag. -/
theorem c8_parallel_behavior (c : Config) (steps : List GoStep) :
    (c.Parallel [] = (none, [])) ∧
    ((c.Parallel steps).2 = steps.map fun s => (c.Single s.name s.fn).calls) ∧
    ((c.Parallel steps).1 = none ↔
      ∀ s ∈ steps, (c.Single s.name s.fn).err = none) ∧
    (∀ E, (c.Parallel steps).1 = some E →
      ∃ s ∈ steps, ∃ e, (c.Single s.name s.fn).err = some e ∧
        E = .wrap "parallel" e) := by
  have key : ((steps.map fun s => c.Single s.name s.fn).filterMap
        fun r => r.err) = [] ↔
      ∀ s ∈ steps, (c.Single s.name s.fn).err = none := by
    rw [List.filterMap_eq_nil_iff]
    simp
  refine ⟨rfl, ?_, ?_, ?_⟩
  · rcases hh : ((steps.map fun s => c.Single s.name s.fn).filterMap
        fun r => r.err).head? with _ | e <;>
      rw [Parallel_eq, hh] <;>
      simp [Function.comp]
  · rcases hh : ((steps.map fun s => c.Single s.name s.fn).filterMap
        fun r => r.err).head? with _ | e
    · constructor
      · intro _
        exact key.mp (List.head?_eq_none_iff.mp hh)
      · intro _
        rw [Parallel_eq, hh]
    · constructor
      · intro h
        rw [Parallel_eq, hh] at h
        simp at h
      · intro hall
        exfalso
        rw [key.mpr hall] at hh
        simp at hh
  · intro E hE
    rcases hh : ((steps.map fun s => c.Single s.name s.fn).filterMap
        fun r => r.err).head? with _ | e
    · rw [Parallel_eq, hh] at hE
      simp at hE
    · have hmem : e ∈ (steps.map fun s => c.Single s.name s.fn).filterMap
          fun r => r.err := List.mem_of_mem_head? (by rw [hh]; rfl)
      rw [List.mem_filterMap] at hmem
      obtain ⟨r, hr, hre⟩ := hmem
      rw [List.mem_map] at hr
      obtain ⟨s, hsmem, rfl⟩ := hr
      have hEe : E = .wrap "parallel" e := by
        rw [Parallel_eq, hh] at hE
        simp at hE
        exact hE.symm
      exact ⟨s, hsmem, e, hre, hEe⟩

/-- C8 witness: with attempt limit 2, a failing step A and a succeeding
step B both run their full Single sequence (A is invoked twice, B once)
and the call returns a non-nil error. -/
theorem c8_parallel_behavior_witness :
    ((New [Opt.count 2]).Parallel
        [⟨"A", fun _ => some (.base 1)⟩, ⟨"B", fun _ => none⟩]).2 = [2, 1] ∧
    ((New [Opt.count 2]).Parallel
        [⟨"A", fun _ => some (.base 1)⟩, ⟨"B", fun _ => none⟩]).1 ≠ none := by
  have h := c8_parallel_behavior (New [Opt.count 2])
    [⟨"A", fun _ => some (.base 1)⟩, ⟨"B", fun _ => none⟩]
  constructor
  · rw [h.2.1]
    decide
  · intro hn
    have hall := h.2.2.1.mp hn ⟨"A", fun _ => some (.base 1)⟩ (by simp)
    revert hall
    decide

/-! ### Claim C9 -/

/-- C9: for every (possibly empty, possibly invalid) list of options,
`New` yields a configuration with `attemptLimit ≥ 1`, `baseDelay > 0`,
`jitter ≥ 0` and `parallelism ≥ 0` (and it has no error result at all);
with no options the result is exactly attempt limit 1, base delay equal
to the `minSleep` floor, jitter 0, parallelism 0, and the all-invalid
option list `Count(-10), Parallelism(-6), Sleep(-1h), Jitter(-1m)` clamps
to the same values. -/
theorem c9_construction_invariants :
    (∀ opts : List Opt, 1 ≤ (New opts).count ∧ 0 < (New opts).sleep ∧
      0 ≤ (New opts).jitter ∧ 0 ≤ (New opts).parallelism) ∧
    New [] = ({ count := 1, sleep := minSleep } : Config) ∧
    New [Opt.count (-10), Opt.parallelism (-6), Opt.sleep (-3600000000000),
        Opt.jitter (-60000000000)] =
      ({ count := 1, sleep := minSleep } : Config) := by
  refine ⟨fun opts => validate_invariants _, by decide, by decide⟩

/-! ### Claim C10 -/

/-- C10: every mode value other than Linear, Exponential and Fibonacci —
including the zero value `Simple` that a freshly constructed
configuration carries — takes the default branch of `stepDuration`,
which is exactly the Simple behaviour `baseDelay + jitter * n` (in int64
arithmetic). -/
theorem c10_unknown_mode_falls_back_to_simple (c : Config) (n : Nat)
    (h1 : c.mode ≠ Linear) (h2 : c.mode ≠ Exponential)
    (h3 : c.mode ≠ Fibonacci) :
    c.stepDuration n = Config.stepDuration { c with mode := Simple } n ∧
    c.stepDuration n = w64 (c.sleep + w64 (c.jitter * (n : Int))) ∧
    (New []).mode = Simple := by
  have hd := stepDuration_default c n h1 h2 h3
  have hd0 := stepDuration_default { c with mode := Simple } n
    (show Simple ≠ Linear by decide) (show Simple ≠ Exponential by decide)
    (show Simple ≠ Fibonacci by decide)
  refine ⟨?_, hd, by decide⟩
  rw [hd, hd0]

/-- C10 witness: a configuration with the out-of-range mode byte 7
computes the same delay as the Simple mode. -/
theorem c10_unknown_mode_falls_back_to_simple_witness :
    (Config.mk [] 5 3 1 0 7 false).stepDuration 2 =
      (Config.mk [] 5 3 1 0 0 false).stepDuration 2 := by
  exact (c10_unknown_mode_falls_back_to_simple ⟨[], 5, 3, 1, 0, 7, false⟩ 2
    (by decide) (by decide) (by decide)).1

end Retry
